import Mathlib

/-
  Verification development for the SMPL forward deformation pipeline
  (SMPLfitter/src/smpl_torch.py).

  The Python code is a pure numeric pipeline over dense tensors.  We embed it
  shallowly over the rationals:

  * tensors become nested lists of rationals;
  * the transcendental primitives `torch.cos`, `torch.sin` and the square root
    inside `torch.norm` are opaque to the algorithm, so they are passed in as
    an explicit record of functions `TorchMath`;
  * the fresh Gaussian noise drawn by `r.clone().normal_(std=1e-8)` inside
    `SMPL._rodrigues` (line 44) is hoisted into an explicit parameter
    `eps : Nat -> Vec` giving the drawn noise row for each batch row, so that
    nondeterminism becomes explicit quantification over the draw;
  * shape errors raised by torch (mismatched contraction dimensions,
    out-of-range indexing, missing dictionary keys) become an `Except`
    error value.  The extra constructor `invalidTopology` never arises from
    the embedded code; it exists only to state the spec's error taxonomy
    (`InvalidTopologyError`) so that claims about it can be formalised.
-/

set_option maxRecDepth 100000

namespace SMPL

abbrev Vec := List ℚ
abbrev Mat := List (List ℚ)

/-- Error values modelling the exceptions the Python code can raise, plus the
spec's `InvalidTopologyError` (which the code never raises; it is included so
that the spec's claimed error behaviour can be stated and compared). -/
inductive TorchError where
  | dimMismatch (arr : String) (expected actual : ℕ)
  | indexError
  | keyError
  | invalidTopology
  deriving DecidableEq, Repr

instance exceptDecEq {ε α : Type} [DecidableEq ε] [DecidableEq α] :
    DecidableEq (Except ε α) := fun x y =>
  match x, y with
  | Except.ok a, Except.ok b =>
    if h : a = b then isTrue (by rw [h]) else isFalse (by simp [h])
  | Except.error e, Except.error g =>
    if h : e = g then isTrue (by rw [h]) else isFalse (by simp [h])
  | Except.ok _, Except.error _ => isFalse (by simp)
  | Except.error _, Except.ok _ => isFalse (by simp)

/-- The opaque scalar primitives used by `_rodrigues`: `torch.cos`,
`torch.sin`, and the square root inside `torch.norm`. -/
structure TorchMath where
  cos : ℚ → ℚ
  sin : ℚ → ℚ
  sqrt : ℚ → ℚ

/-- The immutable parameter bundle loaded in `SMPL.__init__` (lines 15-21):
`J_regressor`, `weights`, `posedirs`, `v_template`, `shapedirs`, the two rows
of `kintree_table`, and the face list `f`. -/
structure Params where
  J_regressor : Mat
  weights : Mat
  posedirs : List (List Vec)
  v_template : Mat
  shapedirs : List (List Vec)
  kintree0 : List ℤ
  kintree1 : List ℤ
  f : List (List ℕ)

/-- Elementwise vector addition (torch `+` on equally shaped tensors). -/
def addVec (a b : Vec) : Vec := List.zipWith (· + ·) a b

/-- Elementwise vector subtraction. -/
def subVec (a b : Vec) : Vec := List.zipWith (· - ·) a b

/-- Dot product of two vectors. -/
def dot (a b : Vec) : ℚ := (List.zipWith (· * ·) a b).sum

/-- Sum of squares of the entries of a vector (the quantity under the square
root in `torch.norm(·, dim=(1,2))` applied to one `[1,3]` row). -/
def sumSq (v : Vec) : ℚ := (v.map fun x => x * x).sum

/-- Scalar multiple of a matrix (broadcast `*` in torch). -/
def smulMat (c : ℚ) (A : Mat) : Mat := A.map fun r => r.map fun x => c * x

/-- Elementwise matrix addition. -/
def matAdd (A B : Mat) : Mat := List.zipWith (fun r s => List.zipWith (· + ·) r s) A B

/-- Elementwise matrix subtraction. -/
def matSub (A B : Mat) : Mat := List.zipWith (fun r s => List.zipWith (· - ·) r s) A B

/-- Column `j` of a matrix. -/
def col (B : Mat) (j : ℕ) : Vec := B.map fun r => r.getD j 0

/-- Unchecked matrix product (used where the shapes are forced by
construction: the 4x4 chain products and the batched 4x4 times 4x1 products;
the column count of the right factor is read off its first row, as torch reads
it off the tensor shape). -/
def mulU (A B : Mat) : Mat :=
  A.map fun ra => (List.range (B.headD []).length).map fun j => dot ra (col B j)

/-- Matrix entry with default 0 (tensor indexing). -/
def entry (A : Mat) (i j : ℕ) : ℚ := (A.getD i []).getD j 0

/-- The 3x3 identity matrix (`torch.eye(3)`, line 66 and line 141). -/
def eye3 : Mat := [[1, 0, 0], [0, 1, 0], [0, 0, 1]]

/-- The 4x4 zero matrix. -/
def zero4 : Mat := List.replicate 4 (List.replicate 4 (0 : ℚ))

/-- Sum of a list of 4x4 matrices. -/
def sumMats (l : List Mat) : Mat := l.foldr matAdd zero4

/-- Checked list indexing: Python `l[i]` raising `IndexError` out of range. -/
def listGet {α : Type} (l : List α) (i : ℕ) : Except TorchError α :=
  match l.get? i with
  | some a => Except.ok a
  | none => Except.error TorchError.indexError

/-- `torch.tensordot(A, b, dims=([2],[0]))` for a rank-3 `A` and rank-1 `b`
(lines 132 and 145): contracts the last axis of `A` with `b` after checking
the contracted dimensions agree, as torch does from the tensor shapes. -/
def tensordot3 (A : List (List Vec)) (b : Vec) : Except TorchError Mat :=
  if ((A.headD []).headD []).length = b.length then
    Except.ok (A.map fun row => row.map fun inner => dot inner b)
  else
    Except.error (TorchError.dimMismatch "tensordot dim 2 vs dim 0"
      ((A.headD []).headD []).length b.length)

/-- `torch.matmul` on two rank-2 tensors (line 133), with torch's check that
the inner dimensions agree. -/
def mulMat (A B : Mat) : Except TorchError Mat :=
  if (A.headD []).length = B.length then
    Except.ok (A.map fun ra => (List.range ((B.headD []).length)).map fun j => dot ra (col B j))
  else
    Except.error (TorchError.dimMismatch "matmul inner" (A.headD []).length B.length)

/-- The outer product `torch.matmul(r_hat.permute(0,2,1), r_hat)` for one
batch row (lines 68-69): entry `(a, b)` is `r_hat_a * r_hat_b`. -/
def outerOf (rh : Vec) : Mat :=
  let h := fun k => rh.getD k 0
  [[h 0 * h 0, h 0 * h 1, h 0 * h 2],
   [h 1 * h 0, h 1 * h 1, h 1 * h 2],
   [h 2 * h 0, h 2 * h 1, h 2 * h 2]]

/-- The skew matrix `m` stacked in lines 50-64 for one batch row:
`[[0, -r2, r1], [r2, 0, -r0], [-r1, r0, 0]]`. -/
def skewOf (rh : Vec) : Mat :=
  let h := fun k => rh.getD k 0
  [[0, -(h 2), h 1],
   [h 2, 0, -(h 0)],
   [-(h 1), h 0, 0]]

/-- One batch row of `SMPL._rodrigues` (lines 28-71).  `r` is the axis-angle
row, `e` is the fresh Gaussian noise row drawn by `r.clone().normal_(std=1e-8)`
(line 44).  `theta = norm(r + e)`, `r_hat = r / theta` (note: `r`, not
`r + e`, is divided), and
`R = cos(theta) * I + (1 - cos(theta)) * (r_hat^T r_hat) + sin(theta) * skew(r_hat)`. -/
def rodriguesRow (M : TorchMath) (r e : Vec) : Mat :=
  let theta := M.sqrt (sumSq (addVec r e))
  let rh := r.map fun x => x / theta
  matAdd (matAdd (smulMat (M.cos theta) eye3)
      (smulMat (1 - M.cos theta) (outerOf rh)))
    (smulMat (M.sin theta) (skewOf rh))

/-- `SMPL._rodrigues` applied to the whole batch `pose.view(-1, 1, 3)`
(line 134), with the noise draw for row `i` given by `eps i`. -/
def rodrigues (M : TorchMath) (rows : List Vec) (eps : ℕ → Vec) : List Mat :=
  (List.range rows.length).map fun i => rodriguesRow M (rows.getD i []) (eps i)

/-- `SMPL._with_zeros` (lines 73-89): append the row `[0, 0, 0, 1]` to a
`[3, 4]` matrix. -/
def withZeros (x : Mat) : Mat := x ++ [[0, 0, 0, 1]]

/-- `SMPL._pack` (lines 91-107) on one batch element: prepend three zero
columns to a `[4, 1]` column, giving a `[4, 4]` matrix. -/
def packM (x : Mat) : Mat := x.map fun row => [0, 0, 0] ++ row

/-- `torch.cat((R_i, reshape(t, (3,1))), dim=1)` (lines 148, 154-160):
adjoin a translation column to a 3x3 rotation block. -/
def catCol (A : Mat) (t : Vec) : Mat := List.zipWith (fun row x => row ++ [x]) A t

/-- The dictionary comprehension `id_to_col` of line 130: maps a joint id to
its column, later columns overwriting earlier ones as in a Python dict. -/
def idToCol (kt1 : List ℤ) (x : ℤ) : Option ℕ :=
  (List.range kt1.length).foldl (fun acc i => if kt1.getD i 0 = x then some i else acc) none

/-- The dictionary comprehension `parent` of line 131: for each column
`i = 1 .. n-1`, look up the column of the parent id `kintree_table[0, i]`;
a missing id raises `KeyError`.  The result list `pm` has `pm[i-1] = parent i`. -/
def buildParent (kt0 kt1 : List ℤ) : Except TorchError (List ℕ) :=
  (List.range' 1 (kt1.length - 1)).mapM fun i =>
    match idToCol kt1 (kt0.getD i 0) with
    | some c => Except.ok c
    | none => Except.error TorchError.keyError

/-- Line 132: `v_shaped = torch.tensordot(shapedirs, beta, dims=([2],[0])) + v_template`. -/
def shapeStage (shapedirs : List (List Vec)) (tmpl : Mat) (beta : Vec) :
    Except TorchError Mat :=
  Except.map (fun d => matAdd d tmpl) (tensordot3 shapedirs beta)

/-- Lines 139-144: `lrotmin`, the row-major flattening of `R_cube - I_cube`
over the non-root joints `R_cube_big[1:]`. -/
def lrotminOf (R : List Mat) : Vec :=
  ((R.drop 1).map fun Rj => (matSub Rj eye3).flatten).flatten

/-- Lines 136-145: the pose-corrective branch.  With `simplify` set the
shaped vertices pass through unchanged; otherwise
`v_posed = v_shaped + tensordot(posedirs, lrotmin, dims=([2],[0]))`. -/
def poseStage (simplify : Bool) (posedirs : List (List Vec)) (v_shaped : Mat)
    (R : List Mat) : Except TorchError Mat :=
  if simplify then Except.ok v_shaped
  else Except.map (fun dv => matAdd v_shaped dv) (tensordot3 posedirs (lrotminOf R))

/-- The body of the forward-kinematics loop of lines 149-163, phrased with
explicit fuel; the loop index `i` is always the current length of the
accumulated `results` list (the list starts as `[G_0]`, so `i` runs
`1, 2, ...`).  Each step reads `results[parent[i]]` (an `IndexError` if the
parent entry has not been produced yet), then builds
`results[parent[i]] @ with_zeros(cat((R[i], J[i] - J[parent[i]]), dim=1))`. -/
def fkAux (R : List Mat) (Jm : Mat) (pm : List ℕ) :
    ℕ → List Mat → Except TorchError (List Mat)
  | 0, acc => Except.ok acc
  | fuel + 1, acc => do
    let i := acc.length
    let p := pm.getD (i - 1) 0
    let gp ← listGet acc p
    let Ri ← listGet R i
    let Ji ← listGet Jm i
    let Jp ← listGet Jm p
    fkAux R Jm pm fuel (acc ++ [mulU gp (withZeros (catCol Ri (subVec Ji Jp)))])

/-- Lines 147-163: the world transforms `G_0, ..., G_{n-1}`.
`G_0 = with_zeros(cat((R[0], J[0]), dim=1))` and then `n - 1` loop steps. -/
def fkResults (R : List Mat) (Jm : Mat) (pm : List ℕ) (n : ℕ) :
    Except TorchError (List Mat) := do
  let R0 ← listGet R 0
  let J0 ← listGet Jm 0
  fkAux R Jm pm (n - 1) [withZeros (catCol R0 J0)]

/-- The homogeneous rest-joint column of lines 169-175:
`reshape(cat((J, zeros(24,1)), dim=1), (24,4,1))` for one joint row. -/
def colOf (Jr : Vec) : Mat := (Jr ++ [0]).map fun x => [x]

/-- Lines 165-177: the rest-pose correction
`results = stacked - pack(matmul(stacked, reshape(cat((J, zeros(24, 1)), dim=1), (24, 4, 1))))`.
The `torch.cat` with the hardcoded `torch.zeros((24, 1))` requires `J` to have
exactly 24 rows, and the batched `matmul` requires the batch sizes (the number
of stacked transforms and the 24 joint columns) to agree. -/
def restCorrect (stacked : List Mat) (Jm : Mat) : Except TorchError (List Mat) :=
  if Jm.length = 24 then
    if stacked.length = 24 then
      Except.ok (List.zipWith (fun G Jr => matSub G (packM (mulU G (colOf Jr)))) stacked Jm)
    else Except.error (TorchError.dimMismatch "batched matmul stacked vs joints" 24 stacked.length)
  else Except.error (TorchError.dimMismatch "torch.cat J with zeros(24,1)" 24 Jm.length)

/-- Line 178: `T = torch.tensordot(weights, results, dims=([1],[0]))`:
`T_v` is the weights-row-`v` linear combination of the 24 relative
transforms, with torch's check that the contracted dimensions agree. -/
def tensordotW (W : Mat) (Ms : List Mat) : Except TorchError (List Mat) :=
  if (W.headD []).length = Ms.length then
    Except.ok (W.map fun wrow => sumMats (List.zipWith smulMat wrow Ms))
  else
    Except.error (TorchError.dimMismatch "tensordot weights vs results"
      (W.headD []).length Ms.length)

/-- Lines 178-188: linear blend skinning.  `rest_shape_h` appends a
homogeneous 1 to each posed vertex; `v = matmul(T, reshape(rest_shape_h, (-1,4,1)))`
is the batched product (batch sizes must agree); the first three entries are
kept and the global translation `reshape(trans, (1, 3))` is broadcast on. -/
def skinStage (W : Mat) (Ms : List Mat) (vPosed : Mat) (trans : Vec) :
    Except TorchError Mat := do
  let T ← tensordotW W Ms
  let rest := vPosed.map fun r => r ++ [1]
  if T.length = rest.length then
    let v := List.zipWith (fun Tv hv => ((mulU Tv (hv.map fun x => [x])).flatten).take 3) T rest
    if trans.length = 3 then
      Except.ok (v.map fun r => addVec r trans)
    else Except.error (TorchError.dimMismatch "reshape trans" 3 trans.length)
  else Except.error (TorchError.dimMismatch "batched matmul T vs rest_shape_h" T.length rest.length)

/-- `SMPL.forward` (lines 109-189).  `eps` is the per-row Gaussian noise drawn
inside `_rodrigues`; everything else follows the source line by line:
build the `parent` dictionary (130-131), shape blend (132), joint regression
(133), Rodrigues (134), pose blend (136-145), the kinematics chain (147-163),
rest-pose correction (165-177), skinning and translation (178-188), and return
the vertices together with the face list `self.f` (189). -/
def forward (M : TorchMath) (P : Params) (eps : ℕ → Vec) (beta : Vec)
    (pose : List Vec) (trans : Vec) (simplify : Bool) :
    Except TorchError (Mat × List (List ℕ)) := do
  let pm ← buildParent P.kintree0 P.kintree1
  let vShaped ← shapeStage P.shapedirs P.v_template beta
  let Jm ← mulMat P.J_regressor vShaped
  let R := rodrigues M pose eps
  let vPosed ← poseStage simplify P.posedirs vShaped R
  let stacked ← fkResults R Jm pm P.kintree1.length
  let results ← restCorrect stacked Jm
  let vs ← skinStage P.weights results vPosed trans
  Except.ok (vs, P.f)

/-- Whether an `Except` result is a success. -/
def isOkB {α : Type} : Except TorchError α → Bool
  | Except.ok _ => true
  | Except.error _ => false

/-- Modelled from the spec (section 4.4): the world transform
`G_0 = [R_0 | jointRestPositions[0]]`,
`G_j = G_{parent(j)} * [R_j | jointRestPositions[j] - jointRestPositions[parent(j)]]`,
written as a recursion on the joint index.  The `min` with `j` only guards
termination; under the topological invariant `parent(j) < j` it is the
parent index itself. -/
def specG (R : List Mat) (Jm : Mat) (pm : List ℕ) : ℕ → Mat
  | 0 => withZeros (catCol (R.getD 0 []) (Jm.getD 0 []))
  | j + 1 =>
    mulU (specG R Jm pm (min (pm.getD j 0) j))
      (withZeros (catCol (R.getD (j + 1) [])
        (subVec (Jm.getD (j + 1) []) (Jm.getD (min (pm.getD j 0) j) []))))
  termination_by j => j
  decreasing_by exact Nat.lt_succ_of_le (Nat.min_le_right _ _)

/-- Modelled from the spec (section 4.4): the relative transform
`T_j = G_j - pack(G_j * [jointRestPositions[j]; 0])`. -/
def specT (R : List Mat) (Jm : Mat) (pm : List ℕ) (j : ℕ) : Mat :=
  matSub (specG R Jm pm j) (packM (mulU (specG R Jm pm j) (colOf (Jm.getD j []))))

/-- The parent list produced by lines 130-131, extracted from the `Except`. -/
def parentsOf (P : Params) : List ℕ :=
  ((buildParent P.kintree0 P.kintree1).toOption).getD []

/-- Mutual consistency of a parameter bundle and the per-call inputs, as the
spec's section 6 requires of the external loader: the kinematic tree has at
least one joint, its parent dictionary builds and satisfies the topological
invariant, and every array has the dimensions `(V, J, S)` cross-checked
(`J = kintree1.length`, `V = v_template.length`, `S = beta.length`).  Note
that the number of joints `J` is NOT fixed to 24 here. -/
abbrev Consistent (P : Params) (beta : Vec) (pose : List Vec) (trans : Vec) : Prop :=
  0 < P.kintree1.length ∧
  P.kintree0.length = P.kintree1.length ∧
  buildParent P.kintree0 P.kintree1 = Except.ok (parentsOf P) ∧
  (parentsOf P).length = P.kintree1.length - 1 ∧
  (∀ k, k < (parentsOf P).length → (parentsOf P).getD k 0 < k + 1) ∧
  0 < P.v_template.length ∧
  (∀ r ∈ P.v_template, r.length = 3) ∧
  P.shapedirs.length = P.v_template.length ∧
  (∀ row ∈ P.shapedirs, row.length = 3 ∧ ∀ inner ∈ row, inner.length = beta.length) ∧
  P.J_regressor.length = P.kintree1.length ∧
  (∀ r ∈ P.J_regressor, r.length = P.v_template.length) ∧
  pose.length = P.kintree1.length ∧
  (∀ r ∈ pose, r.length = 3) ∧
  P.posedirs.length = P.v_template.length ∧
  (∀ row ∈ P.posedirs, row.length = 3 ∧
    ∀ inner ∈ row, inner.length = 9 * (P.kintree1.length - 1)) ∧
  P.weights.length = P.v_template.length ∧
  (∀ r ∈ P.weights, r.length = P.kintree1.length) ∧
  trans.length = 3

/-! Concrete instantiations used to exercise the definitions: a minimal
consistent 24-joint bundle (one vertex, one shape coefficient, every joint a
child of the root), concrete scalar primitives, and concrete noise draws. -/

/-- Concrete scalar primitives with `cos = 1`, `sin = 0`, `sqrt = 0`. -/
def mathW : TorchMath := ⟨fun _ => 1, fun _ => 0, fun _ => 0⟩

/-- Concrete scalar primitives with `cos t = 1 - t`, `sin = 0`, and a `sqrt`
that is correct at the two arguments `0` and `1` at which it is evaluated. -/
def mathC : TorchMath := ⟨fun t => 1 - t, fun _ => 0, fun q => if q = 1 then 1 else 0⟩

/-- The all-zero noise draw. -/
def epsW : ℕ → Vec := fun _ => [0, 0, 0]

/-- A noise draw that perturbs only the root row of the pose. -/
def epsC : ℕ → Vec := fun i => if i = 0 then [1, 0, 0] else [0, 0, 0]

/-- A minimal consistent 24-joint bundle: one template vertex `(1, 0, 0)`,
one shape component, all joint rest positions at the origin, every non-root
joint a child of joint 0, all skinning weight on joint 0. -/
def paramsW : Params where
  J_regressor := List.replicate 24 [0]
  weights := [1 :: List.replicate 23 0]
  posedirs := [[List.replicate 207 (0 : ℚ), List.replicate 207 0, List.replicate 207 0]]
  v_template := [[1, 0, 0]]
  shapedirs := [[[0], [0], [0]]]
  kintree0 := -1 :: List.replicate 23 0
  kintree1 := (List.range 24).map Int.ofNat
  f := [[0, 1, 2]]

/-- `paramsW` with the parent row corrupted so that joint 1's parent is
joint 5: the topological invariant fails at joint 1. -/
def paramsBad : Params :=
  { paramsW with kintree0 := [-1, 5] ++ List.replicate 22 0 }

/-- The all-zero shape coefficient vector for `paramsW`. -/
def betaW : Vec := [0]

/-- The all-zero 24-joint pose. -/
def poseW : List Vec := List.replicate 24 [0, 0, 0]

/-- A consistent bundle with only 23 joints (all arrays mutually consistent;
`posedirs` inner length `9 * 22 = 198`). -/
def paramsJ23 : Params where
  J_regressor := List.replicate 23 [0]
  weights := [1 :: List.replicate 22 0]
  posedirs := [[List.replicate 198 (0 : ℚ), List.replicate 198 0, List.replicate 198 0]]
  v_template := [[1, 0, 0]]
  shapedirs := [[[0], [0], [0]]]
  kintree0 := -1 :: List.replicate 22 0
  kintree1 := (List.range 23).map Int.ofNat
  f := [[0, 1, 2]]

/-- The all-zero 23-joint pose. -/
def poseJ23 : List Vec := List.replicate 23 [0, 0, 0]

/-! Helper lemmas -/

theorem ok_bind {α β : Type} (a : α) (f : α → Except TorchError β) :
    (Except.ok a >>= f) = f a := rfl

theorem error_bind {α β : Type} (e : TorchError) (f : α → Except TorchError β) :
    ((Except.error e : Except TorchError α) >>= f) = Except.error e := rfl

theorem map_ok {α β : Type} (g : α → β) (a : α) :
    Except.map g (Except.ok a : Except TorchError α) = Except.ok (g a) := rfl

theorem map_error {α β : Type} (g : α → β) (e : TorchError) :
    Except.map g (Except.error e : Except TorchError α) = Except.error e := rfl

theorem listGet_lt {α : Type} (l : List α) (i : ℕ) (d : α) (h : i < l.length) :
    listGet l i = Except.ok (l.getD i d) := by
  unfold listGet
  rw [List.getD_eq_getElem?_getD, List.getElem?_eq_getElem h]
  simp [List.get?_eq_getElem?, List.getElem?_eq_getElem h]

theorem listGet_ge {α : Type} (l : List α) (i : ℕ) (h : l.length ≤ i) :
    listGet l i = Except.error TorchError.indexError := by
  unfold listGet
  rw [List.get?_eq_getElem?, List.getElem?_eq_none h]

theorem zipWith_getD {α β γ : Type} (f : α → β → γ) (da : α) (db : β) (dc : γ) :
    ∀ (a : List α) (b : List β) (i : ℕ), i < a.length → i < b.length →
      (List.zipWith f a b).getD i dc = f (a.getD i da) (b.getD i db)
  | _ :: _, _ :: _, 0, _, _ => rfl
  | _ :: a, _ :: b, i + 1, ha, hb =>
    zipWith_getD f da db dc a b i (by simpa using ha) (by simpa using hb)

theorem dot_eq_sum : ∀ (a b : Vec),
    dot a b = ∑ s ∈ Finset.range (min a.length b.length), a.getD s 0 * b.getD s 0 := by
  intro a
  induction a with
  | nil => intro b; simp [dot]
  | cons x a ih =>
    intro b
    cases b with
    | nil => simp [dot]
    | cons y b =>
      have : min (x :: a).length (y :: b).length = min a.length b.length + 1 := by
        simp [Nat.succ_min_succ]
      rw [this, Finset.sum_range_succ']
      have hd : dot (x :: a) (y :: b) = x * y + dot a b := by simp [dot]
      rw [hd, ih b]
      simp [add_comm]

theorem dot_zero_right (a b : Vec) (hb : ∀ x ∈ b, x = 0) : dot a b = 0 := by
  induction a generalizing b with
  | nil => simp [dot]
  | cons x a ih =>
    cases b with
    | nil => simp [dot]
    | cons y b =>
      have hy : y = 0 := hb y (by simp)
      have : dot (x :: a) (y :: b) = x * y + dot a b := by simp [dot]
      rw [this, hy, ih b (fun z hz => hb z (by simp [hz]))]
      ring

theorem map_getD {α β : Type} (f : α → β) (d : α) (d2 : β) :
    ∀ (l : List α) (i : ℕ), i < l.length → (l.map f).getD i d2 = f (l.getD i d)
  | _ :: _, 0, _ => rfl
  | _ :: l, i + 1, h => map_getD f d d2 l i (by simpa using h)

theorem getD_mem {α : Type} : ∀ (l : List α) (i : ℕ) (d : α), i < l.length → l.getD i d ∈ l
  | x :: _, 0, _, _ => by simp
  | y :: l, i + 1, d, h => by
    have := getD_mem l i d (by simpa using h)
    exact List.mem_cons_of_mem y this

theorem zipWith_add_left_zero : ∀ (a b : Vec), a.length = b.length →
    (∀ x ∈ a, x = 0) → List.zipWith (· + ·) a b = b
  | [], [], _, _ => rfl
  | [], _ :: _, h, _ => by simp at h
  | _ :: _, [], h, _ => by simp at h
  | x :: a, y :: b, h, hz => by
    have hx : x = 0 := hz x (by simp)
    have : List.zipWith (· + ·) a b = b :=
      zipWith_add_left_zero a b (by simpa using h) (fun z hzz => hz z (by simp [hzz]))
    simp [hx, this]

theorem matAdd_left_zero : ∀ (D T : Mat), D.length = T.length →
    (∀ i, i < T.length → (D.getD i []).length = (T.getD i []).length) →
    (∀ r ∈ D, ∀ x ∈ r, x = 0) → matAdd D T = T
  | [], [], _, _, _ => rfl
  | [], _ :: _, h, _, _ => by simp at h
  | _ :: _, [], h, _, _ => by simp at h
  | d :: D, t :: T, h, hrow, hz => by
    have h0 : d.length = t.length := by simpa using hrow 0 (by simp)
    have hd : List.zipWith (· + ·) d t = t :=
      zipWith_add_left_zero d t h0 (hz d (by simp))
    have hrest : matAdd D T = T :=
      matAdd_left_zero D T (by simpa using h)
        (fun i hi => by simpa using hrow (i + 1) (by simpa using hi))
        (fun r hr => hz r (by simp [hr]))
    simp [matAdd] at hrest ⊢
    exact ⟨hd, hrest⟩

/-! Claim theorems -/

/-- C2: on the zero axis-angle row, `_rodrigues` returns exactly
`cos(theta~) * I` where `theta~ = sqrt(sumSq eps)` is the norm of the noise
alone: the division `r / theta` zeroes the direction terms, so the result is
the identity matrix up to the scalar `cos(theta~)` (and hence within `tol` of
the identity whenever `|cos(theta~) - 1| <= tol`, which holds for the true
cosine whenever the draw is small); in particular the noise direction never
enters the result. -/
theorem C2_rodrigues_zero_input (M : TorchMath) (e : Vec) (tol : ℚ)
    (hc : |M.cos (M.sqrt (sumSq (addVec [0, 0, 0] e))) - 1| ≤ tol) :
    rodriguesRow M [0, 0, 0] e
      = smulMat (M.cos (M.sqrt (sumSq (addVec [0, 0, 0] e)))) eye3 ∧
    (∀ i j, i < 3 → j < 3 →
      |entry (rodriguesRow M [0, 0, 0] e) i j - entry eye3 i j| ≤ tol) := by
  have htol : (0 : ℚ) ≤ tol := le_trans (abs_nonneg _) hc
  have hmain : rodriguesRow M [0, 0, 0] e
      = smulMat (M.cos (M.sqrt (sumSq (addVec [0, 0, 0] e)))) eye3 := by
    simp [rodriguesRow, outerOf, skewOf, smulMat, matAdd, eye3]
  refine ⟨hmain, ?_⟩
  intro i j hi hj
  rw [hmain]
  interval_cases i <;> interval_cases j <;>
    simp [entry, smulMat, eye3] <;> first | simpa using hc | simpa using htol

/-- C3: `v_shaped = tensordot(shapedirs, beta, dims=([2],[0])) + v_template`
computes `shaped[v][c] = template[v][c] + sum_s shapedirs[v][c][s] * beta[s]`,
and with the all-zero shape coefficient vector the shaped vertices equal the
template exactly. -/
theorem C3_shape_blend (shapedirs : List (List Vec)) (tmpl : Mat) (beta : Vec)
    (hlen : shapedirs.length = tmpl.length)
    (hV : 0 < tmpl.length)
    (hrow : ∀ row ∈ shapedirs, row.length = 3 ∧ ∀ inner ∈ row, inner.length = beta.length)
    (htmpl : ∀ r ∈ tmpl, r.length = 3) :
    ∃ vs, shapeStage shapedirs tmpl beta = Except.ok vs ∧
      vs.length = tmpl.length ∧
      (∀ v c, v < tmpl.length → c < 3 →
        entry vs v c = entry tmpl v c +
          ∑ s ∈ Finset.range beta.length,
            ((shapedirs.getD v []).getD c []).getD s 0 * beta.getD s 0) ∧
      ((∀ x ∈ beta, x = 0) → vs = tmpl) := by
  have hsd0 : 0 < shapedirs.length := hlen ▸ hV
  have hcheck : ((shapedirs.headD []).headD []).length = beta.length := by
    cases hs : shapedirs with
    | nil => rw [hs] at hsd0; simp at hsd0
    | cons r rs =>
      have hr := hrow r (by rw [hs]; simp)
      cases hr0 : r with
      | nil => rw [hr0] at hr; simp at hr
      | cons i0 is =>
        have hm : i0 ∈ r := by rw [hr0]; simp
        have := hr.2 i0 hm
        simpa using this
  have hDlen : ∀ v, v < shapedirs.length → (shapedirs.getD v []).length = 3 :=
    fun v hv => (hrow _ (getD_mem _ _ _ hv)).1
  have hIlen : ∀ v c, v < shapedirs.length → c < 3 →
      ((shapedirs.getD v []).getD c []).length = beta.length := by
    intro v c hv hc
    refine (hrow _ (getD_mem _ _ _ hv)).2 _ (getD_mem _ _ _ ?_)
    rw [hDlen v hv]; exact hc
  set D := shapedirs.map fun row => row.map fun inner => dot inner beta with hD
  have hDL : D.length = tmpl.length := by simp [hD, hlen]
  have hstage : shapeStage shapedirs tmpl beta = Except.ok (matAdd D tmpl) := by
    unfold shapeStage tensordot3
    rw [if_pos hcheck, map_ok]
  refine ⟨matAdd D tmpl, hstage, by simp [matAdd, hDL], ?_, ?_⟩
  · intro v c hv hc
    have hvD : v < D.length := hDL ▸ hv
    have hvS : v < shapedirs.length := by simpa [hlen] using hv
    have hrowD : (D.getD v []).length = 3 := by
      rw [hD, map_getD _ [] [] _ _ hvS, List.length_map]
      exact hDlen v hvS
    have e1 : entry (matAdd D tmpl) v c =
        (D.getD v []).getD c 0 + (tmpl.getD v []).getD c 0 := by
      unfold entry matAdd
      rw [zipWith_getD _ [] [] [] D tmpl v hvD hv,
        zipWith_getD _ 0 0 0 _ _ c (by rw [hrowD]; exact hc)
          (by rw [htmpl _ (getD_mem _ _ _ hv)]; exact hc)]
    have e2 : (D.getD v []).getD c 0 = dot ((shapedirs.getD v []).getD c []) beta := by
      rw [hD, map_getD _ [] [] _ _ hvS, map_getD _ [] 0 _ _ (by rw [hDlen v hvS]; exact hc)]
    rw [e1, e2, dot_eq_sum, hIlen v c hvS hc, min_self, add_comm]
    rfl
  · intro hbz
    refine matAdd_left_zero D tmpl hDL ?_ ?_
    · intro i hi
      have hiS : i < shapedirs.length := by simpa [hlen] using hi
      rw [hD, map_getD _ [] [] _ _ hiS, List.length_map, hDlen i hiS,
        htmpl _ (getD_mem _ _ _ hi)]
    · intro r hr x hx
      rw [hD] at hr
      obtain ⟨row, _, rfl⟩ := List.mem_map.mp hr
      obtain ⟨inner, _, rfl⟩ := List.mem_map.mp hx
      exact dot_zero_right inner beta hbz

/-- Witness for C2: concrete primitives (`cos` constant 1), a concrete noise
draw `(1, 0, 0)`, tolerance 1. -/
theorem C2_rodrigues_zero_input_witness :
    |mathW.cos (mathW.sqrt (sumSq (addVec [0, 0, 0] [1, 0, 0]))) - 1| ≤ 1 ∧
    (rodriguesRow mathW [0, 0, 0] [1, 0, 0]
      = smulMat (mathW.cos (mathW.sqrt (sumSq (addVec [0, 0, 0] [1, 0, 0])))) eye3 ∧
    (∀ i j, i < 3 → j < 3 →
      |entry (rodriguesRow mathW [0, 0, 0] [1, 0, 0]) i j - entry eye3 i j| ≤ 1)) := by
  have hc : |mathW.cos (mathW.sqrt (sumSq (addVec [0, 0, 0] [1, 0, 0]))) - 1| ≤ 1 := by
    norm_num [mathW]
  exact ⟨hc, C2_rodrigues_zero_input mathW [1, 0, 0] 1 hc⟩

/-- Witness for C3 at the concrete minimal bundle. -/
theorem C3_shape_blend_witness :
    ∃ vs, shapeStage paramsW.shapedirs paramsW.v_template betaW = Except.ok vs ∧
      vs.length = paramsW.v_template.length ∧
      (∀ v c, v < paramsW.v_template.length → c < 3 →
        entry vs v c = entry paramsW.v_template v c +
          ∑ s ∈ Finset.range betaW.length,
            ((paramsW.shapedirs.getD v []).getD c []).getD s 0 * betaW.getD s 0) ∧
      ((∀ x ∈ betaW, x = 0) → vs = paramsW.v_template) :=
  C3_shape_blend paramsW.shapedirs paramsW.v_template betaW (by decide) (by decide)
    (by decide) (by decide)

/-- C4: with `simplify = true` the pose-corrective stage returns the shaped
vertices unchanged, whatever the pose-dependent rotations are, and the whole
forward pass does not depend on the pose-corrective basis `posedirs` at all. -/
theorem C4_simplify_skips_pose_blend :
    (∀ (posedirs : List (List Vec)) (vShaped : Mat) (R : List Mat),
      poseStage true posedirs vShaped R = Except.ok vShaped) ∧
    (∀ (M : TorchMath) (P : Params) (pd1 pd2 : List (List Vec)) (eps : ℕ → Vec)
      (beta : Vec) (pose : List Vec) (trans : Vec),
      forward M { P with posedirs := pd1 } eps beta pose trans true =
        forward M { P with posedirs := pd2 } eps beta pose trans true) :=
  ⟨fun _ _ _ => rfl, fun _ _ _ _ _ _ _ _ => rfl⟩

/-- C8: when the shape coefficient vector's length differs from the bundle's
shape-basis dimension `S` (the third axis of `shapedirs`), the shape-blend
contraction of line 132 fails with a dimension-mismatch error naming the
expected and actual contracted dimensions, and the whole forward call
propagates that error: no result is ever produced from the mismatched array. -/
theorem C8_beta_dim_mismatch (M : TorchMath) (P : Params) (eps : ℕ → Vec)
    (beta : Vec) (pose : List Vec) (trans : Vec) (simplify : Bool) (pm : List ℕ)
    (hpm : buildParent P.kintree0 P.kintree1 = Except.ok pm)
    (hne : ((P.shapedirs.headD []).headD []).length ≠ beta.length) :
    shapeStage P.shapedirs P.v_template beta =
      Except.error (TorchError.dimMismatch "tensordot dim 2 vs dim 0"
        ((P.shapedirs.headD []).headD []).length beta.length) ∧
    forward M P eps beta pose trans simplify =
      Except.error (TorchError.dimMismatch "tensordot dim 2 vs dim 0"
        ((P.shapedirs.headD []).headD []).length beta.length) := by
  have hstage : shapeStage P.shapedirs P.v_template beta =
      Except.error (TorchError.dimMismatch "tensordot dim 2 vs dim 0"
        ((P.shapedirs.headD []).headD []).length beta.length) := by
    unfold shapeStage tensordot3
    rw [if_neg hne, map_error]
  refine ⟨hstage, ?_⟩
  unfold forward
  rw [hpm, ok_bind, hstage, error_bind]

/-- Witness for C8: the minimal bundle has `S = 1`; a length-2 coefficient
vector is rejected. -/
theorem C8_beta_dim_mismatch_witness :
    shapeStage paramsW.shapedirs paramsW.v_template [0, 0] =
      Except.error (TorchError.dimMismatch "tensordot dim 2 vs dim 0"
        ((paramsW.shapedirs.headD []).headD []).length ([(0 : ℚ), 0]).length) ∧
    forward mathW paramsW epsW [0, 0] poseW [0, 0, 0] true =
      Except.error (TorchError.dimMismatch "tensordot dim 2 vs dim 0"
        ((paramsW.shapedirs.headD []).headD []).length ([(0 : ℚ), 0]).length) :=
  C8_beta_dim_mismatch mathW paramsW epsW [0, 0] poseW [0, 0, 0] true
    (List.replicate 23 0) (by decide) (by decide)

/-! Forward-kinematics lemmas -/

theorem lt_of_listGet_ok {α : Type} {l : List α} {i : ℕ} {a : α}
    (h : listGet l i = Except.ok a) : i < l.length := by
  by_contra hge
  rw [listGet_ge l i (le_of_not_lt hge)] at h
  simp at h

theorem specG_zero (R : List Mat) (Jm : Mat) (pm : List ℕ) :
    specG R Jm pm 0 = withZeros (catCol (R.getD 0 []) (Jm.getD 0 [])) := by
  rw [specG]

theorem specG_succ (R : List Mat) (Jm : Mat) (pm : List ℕ) (j : ℕ) :
    specG R Jm pm (j + 1) =
      mulU (specG R Jm pm (min (pm.getD j 0) j))
        (withZeros (catCol (R.getD (j + 1) [])
          (subVec (Jm.getD (j + 1) []) (Jm.getD (min (pm.getD j 0) j) [])))) := by
  rw [specG]

theorem fkAux_ok_spec (R : List Mat) (Jm : Mat) (pm : List ℕ) (n : ℕ)
    (hR : n ≤ R.length) (hJ : n ≤ Jm.length)
    (htopo : ∀ k, k < pm.length → pm.getD k 0 < k + 1)
    (hpml : n ≤ pm.length + 1) :
    ∀ (fuel : ℕ) (acc : List Mat), 0 < acc.length → acc.length + fuel = n →
      (∀ j, j < acc.length → acc.getD j [] = specG R Jm pm j) →
      ∃ gs, fkAux R Jm pm fuel acc = Except.ok gs ∧ gs.length = n ∧
        (∀ j, j < n → gs.getD j [] = specG R Jm pm j) := by
  intro fuel
  induction fuel with
  | zero =>
    intro acc hpos hlen hinv
    exact ⟨acc, rfl, by simpa using hlen, fun j hj => hinv j (by omega)⟩
  | succ fuel ih =>
    intro acc hpos hlen hinv
    have hin : acc.length < n := by omega
    have hkpm : acc.length - 1 < pm.length := by omega
    have hp : pm.getD (acc.length - 1) 0 < acc.length := by
      have := htopo (acc.length - 1) hkpm
      omega
    have h1 : listGet acc (pm.getD (acc.length - 1) 0) =
        Except.ok (acc.getD (pm.getD (acc.length - 1) 0) []) :=
      listGet_lt _ _ _ (by omega)
    have h2 : listGet R acc.length = Except.ok (R.getD acc.length []) :=
      listGet_lt _ _ _ (by omega)
    have h3 : listGet Jm acc.length = Except.ok (Jm.getD acc.length []) :=
      listGet_lt _ _ _ (by omega)
    have h4 : listGet Jm (pm.getD (acc.length - 1) 0) =
        Except.ok (Jm.getD (pm.getD (acc.length - 1) 0) []) :=
      listGet_lt _ _ _ (by omega)
    have hstep : fkAux R Jm pm (fuel + 1) acc =
        fkAux R Jm pm fuel (acc ++ [mulU (acc.getD (pm.getD (acc.length - 1) 0) [])
          (withZeros (catCol (R.getD acc.length [])
            (subVec (Jm.getD acc.length []) (Jm.getD (pm.getD (acc.length - 1) 0) []))))]) := by
      simp only [fkAux]
      rw [h1, ok_bind, h2, ok_bind, h3, ok_bind, h4, ok_bind]
    have hXspec : mulU (acc.getD (pm.getD (acc.length - 1) 0) [])
        (withZeros (catCol (R.getD acc.length [])
          (subVec (Jm.getD acc.length []) (Jm.getD (pm.getD (acc.length - 1) 0) []))))
        = specG R Jm pm acc.length := by
      have hi : acc.length = (acc.length - 1) + 1 := by omega
      have hmin : min (pm.getD (acc.length - 1) 0) (acc.length - 1) =
          pm.getD (acc.length - 1) 0 := by omega
      rw [hinv _ (by omega)]
      conv_rhs => rw [hi]
      rw [specG_succ, hmin, ← hi]
    rw [hstep]
    refine ih (acc ++ [_]) (by simp) (by simp; omega) ?_
    intro j hj
    rcases Nat.lt_or_ge j acc.length with hlt | hge
    · rw [List.getD_append _ _ _ _ hlt]
      exact hinv j hlt
    · have hj' : j = acc.length := by simp at hj; omega
      subst hj'
      rw [show (acc ++ [mulU (acc.getD (pm.getD (acc.length - 1) 0) [])
          (withZeros (catCol (R.getD acc.length [])
            (subVec (Jm.getD acc.length []) (Jm.getD (pm.getD (acc.length - 1) 0) []))))]).getD
            acc.length [] = mulU (acc.getD (pm.getD (acc.length - 1) 0) [])
          (withZeros (catCol (R.getD acc.length [])
            (subVec (Jm.getD acc.length []) (Jm.getD (pm.getD (acc.length - 1) 0) []))))
        from by simp [List.getD_append_right]]
      exact hXspec

theorem fkResults_ok_spec (R : List Mat) (Jm : Mat) (pm : List ℕ) (n : ℕ)
    (hn : 0 < n) (hR : n ≤ R.length) (hJ : n ≤ Jm.length)
    (htopo : ∀ k, k < pm.length → pm.getD k 0 < k + 1)
    (hpml : n ≤ pm.length + 1) :
    ∃ gs, fkResults R Jm pm n = Except.ok gs ∧ gs.length = n ∧
      ∀ j, j < n → gs.getD j [] = specG R Jm pm j := by
  unfold fkResults
  rw [listGet_lt R 0 [] (by omega), ok_bind, listGet_lt Jm 0 [] (by omega), ok_bind]
  refine fkAux_ok_spec R Jm pm n hR hJ htopo hpml (n - 1) _ (by simp) (by simp; omega) ?_
  intro j hj
  have hj0 : j = 0 := by simpa using hj
  subst hj0
  rw [specG_zero]
  rfl

theorem restCorrect_ok_spec (stacked : List Mat) (Jm : Mat)
    (h24J : Jm.length = 24) (h24s : stacked.length = 24) :
    ∃ ts, restCorrect stacked Jm = Except.ok ts ∧ ts.length = 24 ∧
      ∀ j, j < 24 → ts.getD j [] =
        matSub (stacked.getD j []) (packM (mulU (stacked.getD j []) (colOf (Jm.getD j [])))) := by
  unfold restCorrect
  rw [if_pos h24J, if_pos h24s]
  refine ⟨_, rfl, by simp [h24J, h24s], ?_⟩
  intro j hj
  exact zipWith_getD _ [] [] [] stacked Jm j (by omega) (by omega)

/-- C5: the forward-kinematics sweep of lines 147-163 computes exactly the
spec's recurrence `G_0 = [R_0 | J_0]`,
`G_j = G_{parent(j)} * [R_j | J_j - J_{parent(j)}]` for `j` in ascending
order (given the topological invariant `parent(j) < j`), and the rest-pose
correction of lines 165-177 then yields the relative transforms
`T_j = G_j - pack(G_j * [J_j; 0])`. -/
theorem C5_forward_kinematics (R : List Mat) (Jm : Mat) (pm : List ℕ) (n : ℕ)
    (hn : 0 < n) (hR : n ≤ R.length)
    (htopo : ∀ k, k < pm.length → pm.getD k 0 < k + 1)
    (hpml : n ≤ pm.length + 1) (h24 : n = 24) (h24J : Jm.length = 24) :
    ∃ gs ts, fkResults R Jm pm n = Except.ok gs ∧
      (∀ j, j < n → gs.getD j [] = specG R Jm pm j) ∧
      restCorrect gs Jm = Except.ok ts ∧
      (∀ j, j < n → ts.getD j [] = specT R Jm pm j) := by
  obtain ⟨gs, hgs, hlen, hspec⟩ :=
    fkResults_ok_spec R Jm pm n hn hR (by omega) htopo hpml
  obtain ⟨ts, hts, htl, htspec⟩ := restCorrect_ok_spec gs Jm h24J (by omega)
  refine ⟨gs, ts, hgs, hspec, hts, ?_⟩
  intro j hj
  rw [htspec j (by omega), hspec j hj, specT]

/-- Witness for C5: 24 identity rotations, all joints at the origin, every
non-root joint a child of the root. -/
theorem C5_forward_kinematics_witness :
    ∃ gs ts, fkResults (List.replicate 24 eye3) (List.replicate 24 [0, 0, 0])
        (List.replicate 23 0) 24 = Except.ok gs ∧
      (∀ j, j < 24 → gs.getD j [] =
        specG (List.replicate 24 eye3) (List.replicate 24 [0, 0, 0]) (List.replicate 23 0) j) ∧
      restCorrect gs (List.replicate 24 [0, 0, 0]) = Except.ok ts ∧
      (∀ j, j < 24 → ts.getD j [] =
        specT (List.replicate 24 eye3) (List.replicate 24 [0, 0, 0]) (List.replicate 23 0) j) :=
  C5_forward_kinematics (List.replicate 24 eye3) (List.replicate 24 [0, 0, 0])
    (List.replicate 23 0) 24 (by decide) (by decide) (by decide) (by decide) rfl (by decide)

/-! Inversion of a successful forward pass -/

theorem forward_ok_inv (M : TorchMath) (P : Params) (eps : ℕ → Vec) (beta : Vec)
    (pose : List Vec) (trans : Vec) (simplify : Bool) (out : Mat × List (List ℕ))
    (h : forward M P eps beta pose trans simplify = Except.ok out) :
    ∃ pm vsh Jm vp gs rs,
      buildParent P.kintree0 P.kintree1 = Except.ok pm ∧
      shapeStage P.shapedirs P.v_template beta = Except.ok vsh ∧
      mulMat P.J_regressor vsh = Except.ok Jm ∧
      poseStage simplify P.posedirs vsh (rodrigues M pose eps) = Except.ok vp ∧
      fkResults (rodrigues M pose eps) Jm pm P.kintree1.length = Except.ok gs ∧
      restCorrect gs Jm = Except.ok rs ∧
      skinStage P.weights rs vp trans = Except.ok out.1 ∧
      out.2 = P.f := by
  simp only [forward] at h
  cases h1 : buildParent P.kintree0 P.kintree1 with
  | error e => rw [h1, error_bind] at h; simp at h
  | ok pm =>
  rw [h1, ok_bind] at h
  cases h2 : shapeStage P.shapedirs P.v_template beta with
  | error e => rw [h2, error_bind] at h; simp at h
  | ok vsh =>
  rw [h2, ok_bind] at h
  cases h3 : mulMat P.J_regressor vsh with
  | error e => rw [h3, error_bind] at h; simp at h
  | ok Jm =>
  rw [h3, ok_bind] at h
  cases h4 : poseStage simplify P.posedirs vsh (rodrigues M pose eps) with
  | error e => rw [h4, error_bind] at h; simp at h
  | ok vp =>
  rw [h4, ok_bind] at h
  cases h5 : fkResults (rodrigues M pose eps) Jm pm P.kintree1.length with
  | error e => rw [h5, error_bind] at h; simp at h
  | ok gs =>
  rw [h5, ok_bind] at h
  cases h6 : restCorrect gs Jm with
  | error e => rw [h6, error_bind] at h; simp at h
  | ok rs =>
  rw [h6, ok_bind] at h
  cases h7 : skinStage P.weights rs vp trans with
  | error e => rw [h7, error_bind] at h; simp at h
  | ok vs =>
  rw [h7, ok_bind] at h
  have hout : (vs, P.f) = out := by simpa using h
  refine ⟨pm, vsh, Jm, vp, gs, rs, rfl, rfl, h3, h4, h5, h6, ?_, ?_⟩
  · rw [← hout]
    exact h7
  · rw [← hout]

theorem fkAux_ok_parent_lt (R : List Mat) (Jm : Mat) (pm : List ℕ) :
    ∀ (fuel : ℕ) (acc gs : List Mat), fkAux R Jm pm fuel acc = Except.ok gs →
      ∀ k, acc.length ≤ k → k < acc.length + fuel → pm.getD (k - 1) 0 < k := by
  intro fuel
  induction fuel with
  | zero => intro acc gs h k h1 h2; omega
  | succ fuel ih =>
    intro acc gs h k h1 h2
    simp only [fkAux] at h
    cases hg : listGet acc (pm.getD (acc.length - 1) 0) with
    | error e => rw [hg, error_bind] at h; simp at h
    | ok gp =>
    rw [hg, ok_bind] at h
    cases hr : listGet R acc.length with
    | error e => rw [hr, error_bind] at h; simp at h
    | ok Ri =>
    rw [hr, ok_bind] at h
    cases hji : listGet Jm acc.length with
    | error e => rw [hji, error_bind] at h; simp at h
    | ok Ji =>
    rw [hji, ok_bind] at h
    cases hjp : listGet Jm (pm.getD (acc.length - 1) 0) with
    | error e => rw [hjp, error_bind] at h; simp at h
    | ok Jp =>
    rw [hjp, ok_bind] at h
    rcases Nat.eq_or_lt_of_le h1 with heq | hlt
    · rw [← heq]
      have hk : k - 1 = acc.length - 1 := by omega
      rw [show k - 1 = acc.length - 1 from by omega] at *
      exact lt_of_listGet_ok hg
    · exact ih (acc ++ [mulU gp (withZeros (catCol Ri (subVec Ji Jp)))]) gs h k
        (by simp; omega) (by simp; omega)

theorem mapM_ok_length {α β : Type} (f : α → Except TorchError β) :
    ∀ (l : List α) (res : List β), l.mapM f = Except.ok res → res.length = l.length := by
  intro l
  induction l with
  | nil =>
    intro res h
    simp only [List.mapM_nil] at h
    have : ([] : List β) = res := by simpa [pure, Except.pure] using h
    simp [← this]
  | cons x l ih =>
    intro res h
    rw [List.mapM_cons] at h
    cases hx : f x with
    | error e => rw [hx, error_bind] at h; simp at h
    | ok b =>
    rw [hx, ok_bind] at h
    cases hl : l.mapM f with
    | error e => rw [hl, error_bind] at h; simp at h
    | ok bs =>
    rw [hl, ok_bind] at h
    have : (b :: bs : List β) = res := by simpa [pure, Except.pure] using h
    rw [← this]
    simp [ih bs hl]

theorem buildParent_ok_length (kt0 kt1 : List ℤ) (pm : List ℕ)
    (h : buildParent kt0 kt1 = Except.ok pm) : pm.length = kt1.length - 1 := by
  unfold buildParent at h
  have := mapM_ok_length _ _ _ h
  simpa using this

/-- C7 (amended): a kinematic tree that violates the topological invariant
(some joint's parent index is not strictly below its own index) can never
produce a mesh: the forward pass always fails.  The code performs no upfront
validation and raises no typed `InvalidTopologyError`; instead the sweep of
lines 149-163 hits `results[parent[i]]` before that entry exists (an index
error) — see the counterexample theorem for the concrete error value. -/
theorem C7_topology_violation (M : TorchMath) (P : Params) (eps : ℕ → Vec)
    (beta : Vec) (pose : List Vec) (trans : Vec) (simplify : Bool) (pm : List ℕ)
    (hpm : buildParent P.kintree0 P.kintree1 = Except.ok pm)
    (hbad : ∃ k, k < pm.length ∧ k + 1 ≤ pm.getD k 0) :
    isOkB (forward M P eps beta pose trans simplify) = false := by
  cases hf : forward M P eps beta pose trans simplify with
  | error e => rfl
  | ok out =>
  exfalso
  obtain ⟨pm', vsh, Jm, vp, gs, rs, h1, h2, h3, h4, h5, h6, h7, h8⟩ :=
    forward_ok_inv M P eps beta pose trans simplify out hf
  have hpm' : pm = pm' := by
    rw [hpm] at h1
    simpa using h1
  subst hpm'
  obtain ⟨k, hk1, hk2⟩ := hbad
  have hpml : pm.length = P.kintree1.length - 1 :=
    buildParent_ok_length P.kintree0 P.kintree1 pm hpm
  unfold fkResults at h5
  cases hR0 : listGet (rodrigues M pose eps) 0 with
  | error e => rw [hR0, error_bind] at h5; simp at h5
  | ok R0 =>
  rw [hR0, ok_bind] at h5
  cases hJ0 : listGet Jm 0 with
  | error e => rw [hJ0, error_bind] at h5; simp at h5
  | ok J0 =>
  rw [hJ0, ok_bind] at h5
  have hlt := fkAux_ok_parent_lt _ _ _ _ _ _ h5 (k + 1) (by simp) (by simp; omega)
  rw [show k + 1 - 1 = k from by omega] at hlt
  omega

/-- Witness for C7 at the concrete corrupted bundle (joint 1's parent is
joint 5). -/
theorem C7_topology_violation_witness :
    isOkB (forward mathW paramsBad epsW betaW poseW [0, 0, 0] true) = false :=
  C7_topology_violation mathW paramsBad epsW betaW poseW [0, 0, 0] true
    ((5 : ℕ) :: List.replicate 22 0) (by decide) ⟨0, by decide, by decide⟩

/-- C7 counterexample: on a concrete bundle whose kinematic tree violates the
topological order (joint 1's parent is joint 5), the forward pass fails with
an index error raised inside the kinematics sweep — not with the
`InvalidTopologyError` at validation time that the claim asserts. -/
theorem C7_counterexample :
    forward mathW paramsBad epsW betaW poseW [0, 0, 0] true =
      Except.error TorchError.indexError ∧
    forward mathW paramsBad epsW betaW poseW [0, 0, 0] true ≠
      Except.error TorchError.invalidTopology := by
  have h : forward mathW paramsBad epsW betaW poseW [0, 0, 0] true =
      Except.error TorchError.indexError :=
    of_decide_eq_true (by with_unfolding_all rfl)
  refine ⟨h, ?_⟩
  rw [h]
  simp

/-! Skinning lemmas -/

theorem dot_zero_left (a b : Vec) (ha : ∀ x ∈ a, x = 0) : dot a b = 0 := by
  induction a generalizing b with
  | nil => simp [dot]
  | cons x a ih =>
    cases b with
    | nil => simp [dot]
    | cons y b =>
      have hx : x = 0 := ha x (by simp)
      have : dot (x :: a) (y :: b) = x * y + dot a b := by simp [dot]
      rw [this, hx, ih b (fun z hz => ha z (by simp [hz]))]
      ring

theorem flatten_map_singleton {α β : Type} (g : α → β) :
    ∀ l : List α, ((l.map fun x => [g x]).flatten) = l.map g
  | [] => rfl
  | x :: l => by simp [flatten_map_singleton g l]

theorem getD_take {α : Type} (d : α) :
    ∀ (l : List α) (n i : ℕ), i < n → (l.take n).getD i d = l.getD i d
  | _, 0, _, h => absurd h (by omega)
  | [], _ + 1, _, _ => by simp
  | _ :: _, _ + 1, 0, _ => rfl
  | _ :: l, n + 1, i + 1, h => getD_take d l n i (by omega)

theorem matAdd_entry (A B : Mat) (a b : ℕ) (hA : a < A.length) (hB : a < B.length)
    (hra : b < (A.getD a []).length) (hrb : b < (B.getD a []).length) :
    entry (matAdd A B) a b = entry A a b + entry B a b := by
  unfold entry matAdd
  rw [zipWith_getD _ [] [] [] A B a hA hB, zipWith_getD _ 0 0 0 _ _ b hra hrb]

theorem zero4_entry (a b : ℕ) (ha : a < 4) (hb : b < 4) : entry zero4 a b = 0 := by
  interval_cases a <;> interval_cases b <;> rfl

theorem matAdd_row_length (c : ℕ) : ∀ (A B : Mat),
    (∀ r ∈ A, r.length = c) → (∀ r ∈ B, r.length = c) →
    ∀ r ∈ matAdd A B, r.length = c
  | [], _, _, _ => by simp [matAdd]
  | _ :: _, [], _, _ => by simp [matAdd]
  | a :: A, b :: B, ha, hb => by
    intro r hr
    rw [matAdd, List.zipWith_cons_cons] at hr
    rcases List.mem_cons.mp hr with h | h
    · rw [h]
      simp [ha a (by simp), hb b (by simp)]
    · exact matAdd_row_length c A B (fun r hr => ha r (by simp [hr]))
        (fun r hr => hb r (by simp [hr])) r h

theorem smulMat_shape (c : ℕ) (q : ℚ) (A : Mat) (hA : A.length = 4 ∧ ∀ r ∈ A, r.length = c) :
    (smulMat q A).length = 4 ∧ ∀ r ∈ smulMat q A, r.length = c := by
  constructor
  · simp [smulMat, hA.1]
  · intro r hr
    obtain ⟨row, hrow, rfl⟩ := List.mem_map.mp hr
    simp [hA.2 row hrow]

theorem sumMats_shape : ∀ (l : List Mat),
    (∀ A ∈ l, A.length = 4 ∧ ∀ r ∈ A, r.length = 4) →
    (sumMats l).length = 4 ∧ ∀ r ∈ sumMats l, r.length = 4
  | [], _ => by simp [sumMats, zero4]
  | A :: l, h => by
    have hA := h A (by simp)
    have hl := sumMats_shape l (fun B hB => h B (by simp [hB]))
    have heq : sumMats (A :: l) = matAdd A (sumMats l) := rfl
    rw [heq]
    constructor
    · simp [matAdd, hA.1, hl.1]
    · exact matAdd_row_length 4 A (sumMats l) hA.2 hl.2

theorem smulMat_entry (q : ℚ) (A : Mat) (a b : ℕ) (ha : a < A.length)
    (hb : b < (A.getD a []).length) :
    entry (smulMat q A) a b = q * entry A a b := by
  unfold entry smulMat
  rw [map_getD _ [] [] _ _ ha, map_getD _ 0 0 _ _ hb]

theorem zipWith_smul_shape : ∀ (w : Vec) (Ms : List Mat),
    (∀ A ∈ Ms, A.length = 4 ∧ ∀ r ∈ A, r.length = 4) →
    ∀ X ∈ List.zipWith smulMat w Ms, X.length = 4 ∧ ∀ r ∈ X, r.length = 4
  | [], _, _ => by simp
  | _ :: _, [], _ => by simp
  | q :: w, A :: Ms, h => by
    intro X hX
    rw [List.zipWith_cons_cons] at hX
    rcases List.mem_cons.mp hX with hh | hh
    · rw [hh]
      exact smulMat_shape 4 q A (h A (by simp))
    · exact zipWith_smul_shape w Ms (fun B hB => h B (by simp [hB])) X hh

theorem sumMats_smul_entry : ∀ (w : Vec) (Ms : List Mat),
    (∀ A ∈ Ms, A.length = 4 ∧ ∀ r ∈ A, r.length = 4) →
    ∀ a b, a < 4 → b < 4 →
    entry (sumMats (List.zipWith smulMat w Ms)) a b =
      ∑ j ∈ Finset.range (min w.length Ms.length),
        w.getD j 0 * entry (Ms.getD j []) a b
  | [], Ms, _ => by
    intro a b ha hb
    simp [sumMats, zero4_entry a b ha hb]
  | _ :: _, [], _ => by
    intro a b ha hb
    simp [sumMats, zero4_entry a b ha hb]
  | q :: w, A :: Ms, h => by
    intro a b ha hb
    have hA := h A (by simp)
    have htail : ∀ B ∈ Ms, B.length = 4 ∧ ∀ r ∈ B, r.length = 4 :=
      fun B hB => h B (by simp [hB])
    have hS := sumMats_shape (List.zipWith smulMat w Ms) (zipWith_smul_shape w Ms htail)
    have hsm := smulMat_shape 4 q A hA
    have heq : sumMats (List.zipWith smulMat (q :: w) (A :: Ms)) =
        matAdd (smulMat q A) (sumMats (List.zipWith smulMat w Ms)) := rfl
    rw [heq, matAdd_entry _ _ a b (by omega) (by omega)
        (by rw [hsm.2 _ (getD_mem _ _ _ (by omega))]; exact hb)
        (by rw [hS.2 _ (getD_mem _ _ _ (by omega))]; exact hb),
      smulMat_entry q A a b (by omega) (by rw [hA.2 _ (getD_mem _ _ _ (by omega))]; exact hb),
      sumMats_smul_entry w Ms htail a b ha hb]
    have hmin : min (q :: w).length (A :: Ms).length = min w.length Ms.length + 1 := by
      simp [Nat.succ_min_succ]
    rw [hmin, Finset.sum_range_succ']
    simp [add_comm]

theorem zipWith_add_right_zero : ∀ (a : Vec) (n : ℕ), a.length = n →
    (∀ x ∈ a, x = 0) →
    List.zipWith (· + ·) a (List.replicate n (0 : ℚ)) = List.replicate n (0 : ℚ)
  | [], 0, _, _ => rfl
  | [], _ + 1, h, _ => by simp at h
  | _ :: _, 0, h, _ => by simp at h
  | x :: a, n + 1, h, hz => by
    have hx : x = 0 := hz x (by simp)
    have := zipWith_add_right_zero a n (by simpa using h) (fun z hzz => hz z (by simp [hzz]))
    simp [List.replicate_succ, hx, this]

theorem matAdd_zero_right : ∀ (Z : Mat) (n m : ℕ), Z.length = n →
    (∀ r ∈ Z, r.length = m) → (∀ r ∈ Z, ∀ x ∈ r, x = 0) →
    matAdd Z (List.replicate n (List.replicate m (0 : ℚ))) =
      List.replicate n (List.replicate m (0 : ℚ))
  | [], 0, _, _, _, _ => rfl
  | [], _ + 1, _, h, _, _ => by simp at h
  | _ :: _, 0, _, h, _, _ => by simp at h
  | r :: Z, n + 1, m, h, hrow, hz => by
    have h1 : List.zipWith (· + ·) r (List.replicate m (0 : ℚ)) = List.replicate m 0 :=
      zipWith_add_right_zero r m (hrow r (by simp)) (hz r (by simp))
    have h2 := matAdd_zero_right Z n m (by simpa using h)
      (fun s hs => hrow s (by simp [hs])) (fun s hs => hz s (by simp [hs]))
    simp only [List.replicate_succ, matAdd, List.zipWith_cons_cons] at h2 ⊢
    rw [h1, h2]

theorem smulMat_zero_entries (A : Mat) : ∀ r ∈ smulMat 0 A, ∀ x ∈ r, x = 0 := by
  intro r hr x hx
  obtain ⟨row, _, rfl⟩ := List.mem_map.mp hr
  obtain ⟨y, _, rfl⟩ := List.mem_map.mp hx
  ring

theorem sumMats_smul_zero : ∀ (w : Vec) (Ms : List Mat),
    (∀ A ∈ Ms, A.length = 4 ∧ ∀ r ∈ A, r.length = 4) →
    (∀ x ∈ w, x = 0) →
    sumMats (List.zipWith smulMat w Ms) = zero4
  | [], _, _, _ => rfl
  | _ :: _, [], _, _ => rfl
  | q :: w, A :: Ms, h, hz => by
    have hq : q = 0 := hz q (by simp)
    have hA := h A (by simp)
    have htail := sumMats_smul_zero w Ms (fun B hB => h B (by simp [hB]))
      (fun z hzz => hz z (by simp [hzz]))
    have heq : sumMats (List.zipWith smulMat (q :: w) (A :: Ms)) =
        matAdd (smulMat q A) (sumMats (List.zipWith smulMat w Ms)) := rfl
    rw [heq, htail, hq]
    exact matAdd_zero_right (smulMat 0 A) 4 4 (by simp [smulMat, hA.1])
      (smulMat_shape 4 0 A hA).2 (smulMat_zero_entries A)

theorem addVec_zero_left (t : Vec) (ht : t.length = 3) : addVec [0, 0, 0] t = t := by
  obtain ⟨a, b, c, rfl⟩ := List.length_eq_three.mp ht
  simp [addVec]

theorem headD_mem {α : Type} (l : List α) (d : α) (h : 0 < l.length) : l.headD d ∈ l := by
  cases l with
  | nil => simp at h
  | cons x l => simp

theorem mulU_single_col (A : Mat) (a0 : ℚ) (t : Vec) :
    mulU A ((a0 :: t).map fun x => [x]) = A.map fun ra => [dot ra (a0 :: t)] := by
  have hcol : col ([a0] :: t.map fun x => [x]) 0 = a0 :: t := by
    unfold col
    simp only [List.map_cons, List.map_map]
    have hfun : ((fun (r : Vec) => r.getD 0 0) ∘ fun x => [x]) = fun x => x := by
      funext x
      rfl
    rw [hfun, List.map_id']
    rfl
  unfold mulU
  have hh : ((((a0 :: t).map fun x => [x]).headD []).length) = 1 := rfl
  rw [hh]
  simp [List.range_succ, hcol]

/-- C6: linear blend skinning (lines 178-188) succeeds on well-shaped inputs,
returns exactly one output vertex per posed vertex in the same order, computes
`T_v = sum_j weights[v,j] * T_j` entrywise and
`out[v][c] = (T_v * homogeneous(posed[v]))[c] + trans[c]`, and a vertex whose
skinning-weight row is all zeros comes out as the translation alone (no
error). -/
theorem C6_linear_blend_skinning (W : Mat) (Ms : List Mat) (vp : Mat) (trans : Vec)
    (hW0 : 0 < W.length)
    (hWrow : ∀ r ∈ W, r.length = Ms.length)
    (hMs : ∀ A ∈ Ms, A.length = 4 ∧ ∀ r ∈ A, r.length = 4)
    (hWV : W.length = vp.length)
    (hvp : ∀ r ∈ vp, r.length = 3)
    (htr : trans.length = 3) :
    ∃ out, skinStage W Ms vp trans = Except.ok out ∧
      out.length = vp.length ∧
      (∀ v, v < vp.length →
        (∀ a b, a < 4 → b < 4 →
          entry (sumMats (List.zipWith smulMat (W.getD v []) Ms)) a b =
            ∑ j ∈ Finset.range Ms.length,
              (W.getD v []).getD j 0 * entry (Ms.getD j []) a b) ∧
        (∀ c, c < 3 →
          (out.getD v []).getD c 0 =
            (∑ k ∈ Finset.range 4,
              entry (sumMats (List.zipWith smulMat (W.getD v []) Ms)) c k *
                ((vp.getD v []) ++ [1]).getD k 0) + trans.getD c 0)) ∧
      (∀ v, v < vp.length → (∀ x ∈ W.getD v [], x = 0) → out.getD v [] = trans) := by
  have hhead : (W.headD []).length = Ms.length := hWrow _ (headD_mem W [] hW0)
  have htd : tensordotW W Ms =
      Except.ok (W.map fun wrow => sumMats (List.zipWith smulMat wrow Ms)) := by
    unfold tensordotW
    rw [if_pos hhead]
  have hstage : skinStage W Ms vp trans = Except.ok
      ((List.zipWith (fun Tv hv => ((mulU Tv (hv.map fun x => [x])).flatten).take 3)
        (W.map fun wrow => sumMats (List.zipWith smulMat wrow Ms))
        (vp.map fun r => r ++ [1])).map fun r => addVec r trans) := by
    simp only [skinStage]
    rw [htd, ok_bind, if_pos (by simp [hWV]), if_pos htr]
  -- the common row computation
  have hrowv : ∀ v, v < vp.length →
      ((List.zipWith (fun Tv hv => ((mulU Tv (hv.map fun x => [x])).flatten).take 3)
        (W.map fun wrow => sumMats (List.zipWith smulMat wrow Ms))
        (vp.map fun r => r ++ [1])).map fun r => addVec r trans).getD v [] =
      addVec ((((sumMats (List.zipWith smulMat (W.getD v []) Ms)).map
        (fun ra => dot ra ((vp.getD v []) ++ [1]))).take 3)) trans := by
    intro v hv
    have hvW : v < W.length := by omega
    rw [map_getD _ [] [] _ _ (by simp; omega),
      zipWith_getD _ [] [] [] _ _ v (by simp; omega) (by simp; omega),
      map_getD _ [] [] _ _ hvW, map_getD _ [] [] _ _ hv]
    obtain ⟨a0, t, heq⟩ : ∃ a0 t, (vp.getD v []) ++ [1] = a0 :: t := by
      cases hrow : vp.getD v [] with
      | nil => exact ⟨1, [], by simp⟩
      | cons a t => exact ⟨a, t ++ [1], by simp⟩
    rw [heq, mulU_single_col, flatten_map_singleton, ← heq]
  refine ⟨_, hstage, by simp [hWV], ?_, ?_⟩
  · intro v hv
    have hvW : v < W.length := by omega
    have hwlen : (W.getD v []).length = Ms.length := hWrow _ (getD_mem _ _ _ hvW)
    have hTshape := sumMats_shape (List.zipWith smulMat (W.getD v []) Ms)
      (zipWith_smul_shape (W.getD v []) Ms hMs)
    constructor
    · intro a b ha hb
      rw [sumMats_smul_entry (W.getD v []) Ms hMs a b ha hb, hwlen, min_self]
    · intro c hc
      rw [hrowv v hv]
      have hTrows : ∀ k, k < 4 →
          ((sumMats (List.zipWith smulMat (W.getD v []) Ms)).getD k []).length = 4 :=
        fun k hk => hTshape.2 _ (getD_mem _ _ _ (by omega))
      have hmaplen : ((sumMats (List.zipWith smulMat (W.getD v []) Ms)).map
          (fun ra => dot ra ((vp.getD v []) ++ [1]))).length = 4 := by
        rw [List.length_map]
        exact hTshape.1
      have hlen4 : ((vp.getD v []) ++ [1]).length = 4 := by
        rw [List.length_append, hvp _ (getD_mem _ _ _ hv)]
        rfl
      have htakelen : (((sumMats (List.zipWith smulMat (W.getD v []) Ms)).map
          (fun ra => dot ra ((vp.getD v []) ++ [1]))).take 3).length = 3 := by
        rw [List.length_take, hmaplen]
        rfl
      have h1 : (addVec (((sumMats (List.zipWith smulMat (W.getD v []) Ms)).map
          (fun ra => dot ra ((vp.getD v []) ++ [1]))).take 3) trans).getD c 0 =
          ((((sumMats (List.zipWith smulMat (W.getD v []) Ms)).map
            (fun ra => dot ra ((vp.getD v []) ++ [1]))).take 3)).getD c 0 +
          trans.getD c 0 :=
        zipWith_getD _ 0 0 0 _ _ c (by omega) (by omega)
      rw [h1, getD_take 0 _ 3 c hc, map_getD _ [] 0 _ _ (by rw [hTshape.1]; omega),
        dot_eq_sum, hTrows c (by omega), hlen4]
      rfl
  · intro v hv hz
    rw [hrowv v hv, sumMats_smul_zero (W.getD v []) Ms hMs hz]
    have hdz : ∀ ra ∈ zero4, dot ra ((vp.getD v []) ++ [1]) = 0 := by
      intro ra hra
      refine dot_zero_left _ _ ?_
      intro x hx
      have : ra = List.replicate 4 0 := List.eq_of_mem_replicate hra
      rw [this] at hx
      exact List.eq_of_mem_replicate hx
    have hmap : zero4.map (fun ra => dot ra ((vp.getD v []) ++ [1])) =
        List.replicate 4 0 := by
      simp only [zero4, List.map_replicate]
      rw [dot_zero_left _ _ (fun x hx => List.eq_of_mem_replicate hx)]
    rw [hmap]
    have : (List.replicate 4 (0 : ℚ)).take 3 = [0, 0, 0] := rfl
    rw [this, addVec_zero_left trans htr]

/-- Witness for C6: an all-zero weight row, 24 identity transforms, one
vertex, translation `(5, 0, 0)`. -/
theorem C6_linear_blend_skinning_witness :
    ∃ out, skinStage [List.replicate 24 0]
        (List.replicate 24 (withZeros (catCol eye3 [0, 0, 0]))) [[1, 2, 3]] [5, 0, 0] =
        Except.ok out ∧
      out.length = ([[(1 : ℚ), 2, 3]]).length ∧
      (∀ v, v < ([[(1 : ℚ), 2, 3]]).length →
        (∀ a b, a < 4 → b < 4 →
          entry (sumMats (List.zipWith smulMat (([(List.replicate 24 (0 : ℚ))]).getD v [])
              (List.replicate 24 (withZeros (catCol eye3 [0, 0, 0]))))) a b =
            ∑ j ∈ Finset.range (List.replicate 24 (withZeros (catCol eye3 [0, 0, 0]))).length,
              (([(List.replicate 24 (0 : ℚ))]).getD v []).getD j 0 *
                entry ((List.replicate 24 (withZeros (catCol eye3 [0, 0, 0]))).getD j []) a b) ∧
        (∀ c, c < 3 →
          (out.getD v []).getD c 0 =
            (∑ k ∈ Finset.range 4,
              entry (sumMats (List.zipWith smulMat (([(List.replicate 24 (0 : ℚ))]).getD v [])
                  (List.replicate 24 (withZeros (catCol eye3 [0, 0, 0]))))) c k *
                ((([[(1 : ℚ), 2, 3]]).getD v []) ++ [1]).getD k 0) +
              ([(5 : ℚ), 0, 0]).getD c 0)) ∧
      (∀ v, v < ([[(1 : ℚ), 2, 3]]).length →
        (∀ x ∈ ([(List.replicate 24 (0 : ℚ))]).getD v [], x = 0) →
        out.getD v [] = [5, 0, 0]) :=
  C6_linear_blend_skinning [List.replicate 24 0]
    (List.replicate 24 (withZeros (catCol eye3 [0, 0, 0]))) [[1, 2, 3]] [5, 0, 0]
    (by decide) (by decide) (by decide) (by decide) (by decide) (by decide)

/-! Success of the forward pass on consistent bundles -/

theorem rodrigues_length (M : TorchMath) (rows : List Vec) (eps : ℕ → Vec) :
    (rodrigues M rows eps).length = rows.length := by
  simp [rodrigues]

theorem rodriguesRow_flat_length (M : TorchMath) (r e : Vec) :
    ((matSub (rodriguesRow M r e) eye3).flatten).length = 9 := by
  simp [rodriguesRow, matSub, matAdd, smulMat, outerOf, skewOf, eye3]

theorem sum_map_const {α : Type} (f : α → ℕ) (c : ℕ) :
    ∀ l : List α, (∀ x ∈ l, f x = c) → (l.map f).sum = c * l.length
  | [], _ => by simp
  | x :: l, h => by
    rw [List.map_cons, List.sum_cons, h x (by simp),
      sum_map_const f c l (fun y hy => h y (by simp [hy])), List.length_cons]
    ring

theorem lrotmin_length (M : TorchMath) (pose : List Vec) (eps : ℕ → Vec) :
    (lrotminOf (rodrigues M pose eps)).length = 9 * (pose.length - 1) := by
  have h9 : ∀ x ∈ (rodrigues M pose eps).drop 1,
      (fun Rj => ((matSub Rj eye3).flatten).length) x = 9 := by
    intro x hx
    have hx' : x ∈ rodrigues M pose eps := List.mem_of_mem_drop hx
    simp only [rodrigues, List.mem_map] at hx'
    obtain ⟨i, _, rfl⟩ := hx'
    exact rodriguesRow_flat_length M _ _
  unfold lrotminOf
  rw [List.length_flatten, List.map_map]
  have hs := sum_map_const (fun Rj => ((matSub Rj eye3).flatten).length) 9
    ((rodrigues M pose eps).drop 1) h9
  rw [show (List.length ∘ fun Rj => (matSub Rj eye3).flatten) =
      fun Rj => ((matSub Rj eye3).flatten).length from rfl, hs,
    List.length_drop, rodrigues_length]

theorem tensordot3_ok (A : List (List Vec)) (b : Vec)
    (hA0 : 0 < A.length) (hrow0 : 0 < (A.headD []).length)
    (hinner : ∀ row ∈ A, ∀ inner ∈ row, inner.length = b.length) :
    tensordot3 A b = Except.ok (A.map fun row => row.map fun inner => dot inner b) := by
  unfold tensordot3
  rw [if_pos (hinner _ (headD_mem A [] hA0) _ (headD_mem _ [] hrow0))]

theorem shapeStage_ok (P : Params) (beta : Vec)
    (hV : 0 < P.v_template.length)
    (hlen : P.shapedirs.length = P.v_template.length)
    (hrow : ∀ row ∈ P.shapedirs, row.length = 3 ∧ ∀ inner ∈ row, inner.length = beta.length)
    (htmpl : ∀ r ∈ P.v_template, r.length = 3) :
    ∃ vsh, shapeStage P.shapedirs P.v_template beta = Except.ok vsh ∧
      vsh.length = P.v_template.length ∧ ∀ r ∈ vsh, r.length = 3 := by
  have hrow0 : 0 < (P.shapedirs.headD []).length := by
    rw [(hrow _ (headD_mem P.shapedirs [] (by omega))).1]
    omega
  have ht := tensordot3_ok P.shapedirs beta (by omega) hrow0
    (fun row hr inner hi => (hrow row hr).2 inner hi)
  refine ⟨_, by unfold shapeStage; rw [ht, map_ok], by simp [matAdd, hlen], ?_⟩
  refine matAdd_row_length 3 _ _ ?_ htmpl
  intro r hr
  obtain ⟨row, hrow', rfl⟩ := List.mem_map.mp hr
  simp [(hrow row hrow').1]

theorem mulMat_ok_ex (A B : Mat) (hA0 : 0 < A.length)
    (hrows : ∀ r ∈ A, r.length = B.length) :
    ∃ C, mulMat A B = Except.ok C ∧ C.length = A.length := by
  have h : mulMat A B = Except.ok (A.map fun ra =>
      (List.range ((B.headD []).length)).map fun j => dot ra (col B j)) := by
    unfold mulMat
    rw [if_pos (hrows _ (headD_mem A [] hA0))]
  exact ⟨_, h, by simp⟩

theorem poseStage_ok (simplify : Bool) (M : TorchMath) (P : Params) (vsh : Mat)
    (pose : List Vec) (eps : ℕ → Vec)
    (hV : 0 < P.v_template.length)
    (hpd : P.posedirs.length = P.v_template.length)
    (hpdrow : ∀ row ∈ P.posedirs, row.length = 3 ∧
      ∀ inner ∈ row, inner.length = 9 * (pose.length - 1))
    (hvshlen : vsh.length = P.v_template.length) :
    ∃ vp, poseStage simplify P.posedirs vsh (rodrigues M pose eps) = Except.ok vp ∧
      vp.length = P.v_template.length := by
  cases simplify with
  | true => exact ⟨vsh, rfl, hvshlen⟩
  | false =>
    have hrow0 : 0 < (P.posedirs.headD []).length := by
      rw [(hpdrow _ (headD_mem P.posedirs [] (by omega))).1]
      omega
    have hbranch : poseStage false P.posedirs vsh (rodrigues M pose eps) =
        Except.map (fun dv => matAdd vsh dv)
          (tensordot3 P.posedirs (lrotminOf (rodrigues M pose eps))) := rfl
    have ht := tensordot3_ok P.posedirs (lrotminOf (rodrigues M pose eps)) (by omega) hrow0
      (fun row hr inner hi => by
        rw [(hpdrow row hr).2 inner hi, lrotmin_length])
    refine ⟨_, by rw [hbranch, ht, map_ok], by simp [matAdd, hpd, hvshlen]⟩

theorem skinStage_ok (W : Mat) (Ms : List Mat) (vp : Mat) (trans : Vec)
    (hW0 : 0 < W.length) (hrows : ∀ r ∈ W, r.length = Ms.length)
    (hWV : W.length = vp.length) (htr : trans.length = 3) :
    ∃ out, skinStage W Ms vp trans = Except.ok out := by
  have htd : tensordotW W Ms =
      Except.ok (W.map fun wrow => sumMats (List.zipWith smulMat wrow Ms)) := by
    unfold tensordotW
    rw [if_pos (hrows _ (headD_mem W [] hW0))]
  have hstage : skinStage W Ms vp trans = Except.ok
      ((List.zipWith (fun Tv hv => ((mulU Tv (hv.map fun x => [x])).flatten).take 3)
        (W.map fun wrow => sumMats (List.zipWith smulMat wrow Ms))
        (vp.map fun r => r ++ [1])).map fun r => addVec r trans) := by
    simp only [skinStage]
    rw [htd, ok_bind, if_pos (by simp [hWV]), if_pos htr]
  exact ⟨_, hstage⟩

theorem forward_reaches_restCorrect (M : TorchMath) (P : Params) (eps : ℕ → Vec)
    (beta : Vec) (pose : List Vec) (trans : Vec) (simplify : Bool)
    (hcons : Consistent P beta pose trans) :
    ∃ Jm gs vp, Jm.length = P.kintree1.length ∧ gs.length = P.kintree1.length ∧
      vp.length = P.v_template.length ∧
      forward M P eps beta pose trans simplify =
        (restCorrect gs Jm >>= fun rs =>
          skinStage P.weights rs vp trans >>= fun vs => Except.ok (vs, P.f)) := by
  obtain ⟨hn, hkt0, hpm, hpml, htopo, hV, htmpl, hshlen, hshrow, hJreg, hJregrow,
    hposelen, hposerow, hpdlen, hpdrow, hWlen, hWrow, htrans⟩ := hcons
  obtain ⟨vsh, hvsh, hvshlen, hvshrow⟩ := shapeStage_ok P beta hV hshlen hshrow htmpl
  obtain ⟨Jm, hmul, hJmlen⟩ := mulMat_ok_ex P.J_regressor vsh (by omega)
    (fun r hr => by rw [hJregrow r hr, hvshlen])
  obtain ⟨vp, hvp, hvplen⟩ := poseStage_ok simplify M P vsh pose eps hV hpdlen
    (fun row hr => ⟨(hpdrow row hr).1,
      fun inner hi => by rw [(hpdrow row hr).2 inner hi, hposelen]⟩) hvshlen
  obtain ⟨gs, hgs, hgslen, hgspec⟩ := fkResults_ok_spec (rodrigues M pose eps) Jm
    (parentsOf P) P.kintree1.length hn (by rw [rodrigues_length, hposelen])
    (by omega) htopo (by omega)
  refine ⟨Jm, gs, vp, by omega, hgslen, hvplen, ?_⟩
  simp only [forward]
  rw [hpm, ok_bind, hvsh, ok_bind, hmul, ok_bind, hvp, ok_bind, hgs, ok_bind]

theorem forward_ok_of_consistent24 (M : TorchMath) (P : Params) (eps : ℕ → Vec)
    (beta : Vec) (pose : List Vec) (trans : Vec) (simplify : Bool)
    (hcons : Consistent P beta pose trans) (h24 : P.kintree1.length = 24) :
    ∃ vs, forward M P eps beta pose trans simplify = Except.ok (vs, P.f) := by
  obtain ⟨Jm, gs, vp, hJmlen, hgslen, hvplen, hfwd⟩ :=
    forward_reaches_restCorrect M P eps beta pose trans simplify hcons
  obtain ⟨rs, hrs, hrslen, hrspec⟩ := restCorrect_ok_spec gs Jm (by omega) (by omega)
  obtain ⟨hn, hkt0, hpm, hpml, htopo, hV, htmpl, hshlen, hshrow, hJreg, hJregrow,
    hposelen, hposerow, hpdlen, hpdrow, hWlen, hWrow, htrans⟩ := hcons
  obtain ⟨vs, hvs⟩ := skinStage_ok P.weights rs vp trans (by omega)
    (fun r hr => by rw [hWrow r hr, h24, hrslen]) (by omega) htrans
  exact ⟨vs, by rw [hfwd, hrs, ok_bind, hvs, ok_bind]⟩

theorem forward_cat24_err (M : TorchMath) (P : Params) (eps : ℕ → Vec)
    (beta : Vec) (pose : List Vec) (trans : Vec) (simplify : Bool)
    (hcons : Consistent P beta pose trans) (hne : P.kintree1.length ≠ 24) :
    forward M P eps beta pose trans simplify =
      Except.error (TorchError.dimMismatch "torch.cat J with zeros(24,1)" 24
        P.kintree1.length) := by
  obtain ⟨Jm, gs, vp, hJmlen, hgslen, hvplen, hfwd⟩ :=
    forward_reaches_restCorrect M P eps beta pose trans simplify hcons
  rw [hfwd]
  unfold restCorrect
  rw [if_neg (by omega), error_bind, hJmlen]

/-- C10: the rest-pose correction step (lines 165-177) hardcodes 24 joints in
`torch.zeros((24, 1))` and `reshape(..., (24, 4, 1))`; for every mutually
consistent bundle with `J` joints, `J` different from 24 makes the forward
pass fail with the dimension mismatch of the `torch.cat` against the
hardcoded 24 rows (never computing a mesh), while with `J = 24` the whole
forward pass succeeds. -/
theorem C10_joint_count_24 (M : TorchMath) (P : Params) (eps : ℕ → Vec)
    (beta : Vec) (pose : List Vec) (trans : Vec) (simplify : Bool)
    (hcons : Consistent P beta pose trans) :
    (P.kintree1.length ≠ 24 →
      forward M P eps beta pose trans simplify =
        Except.error (TorchError.dimMismatch "torch.cat J with zeros(24,1)" 24
          P.kintree1.length)) ∧
    (P.kintree1.length = 24 →
      ∃ vs, forward M P eps beta pose trans simplify = Except.ok (vs, P.f)) :=
  ⟨fun hne => forward_cat24_err M P eps beta pose trans simplify hcons hne,
   fun h24 => forward_ok_of_consistent24 M P eps beta pose trans simplify hcons h24⟩

/-- Witness for C10 at a consistent 23-joint bundle: the forward pass fails
exactly at the hardcoded-24 `torch.cat`. -/
theorem C10_joint_count_24_witness :
    (paramsJ23.kintree1.length ≠ 24 →
      forward mathW paramsJ23 epsW betaW poseJ23 [0, 0, 0] true =
        Except.error (TorchError.dimMismatch "torch.cat J with zeros(24,1)" 24
          paramsJ23.kintree1.length)) ∧
    (paramsJ23.kintree1.length = 24 →
      ∃ vs, forward mathW paramsJ23 epsW betaW poseJ23 [0, 0, 0] true =
        Except.ok (vs, paramsJ23.f)) :=
  C10_joint_count_24 mathW paramsJ23 epsW betaW poseJ23 [0, 0, 0] true (by decide)

/-- C1 (amended): the forward pass is deterministic only up to the fresh
Gaussian noise drawn inside `_rodrigues` (line 44).  On a consistent
24-joint bundle, two evaluations with possibly different noise draws both
succeed and return the identical face list, and they return identical
vertices whenever the draws coincide; with independent draws the vertex
arrays can differ (see the counterexample theorem). -/
theorem C1_determinism_up_to_noise (M : TorchMath) (P : Params) (e1 e2 : ℕ → Vec)
    (beta : Vec) (pose : List Vec) (trans : Vec) (simplify : Bool)
    (hcons : Consistent P beta pose trans) (h24 : P.kintree1.length = 24) :
    (∃ vs1 vs2, forward M P e1 beta pose trans simplify = Except.ok (vs1, P.f) ∧
      forward M P e2 beta pose trans simplify = Except.ok (vs2, P.f)) ∧
    (e1 = e2 → forward M P e1 beta pose trans simplify =
      forward M P e2 beta pose trans simplify) := by
  obtain ⟨vs1, h1⟩ := forward_ok_of_consistent24 M P e1 beta pose trans simplify hcons h24
  obtain ⟨vs2, h2⟩ := forward_ok_of_consistent24 M P e2 beta pose trans simplify hcons h24
  exact ⟨⟨vs1, vs2, h1, h2⟩, fun he => by rw [he]⟩

/-- Witness for C1 at the concrete bundle with two concrete noise draws. -/
theorem C1_determinism_up_to_noise_witness :
    (∃ vs1 vs2, forward mathC paramsW epsC betaW poseW [0, 0, 0] true =
        Except.ok (vs1, paramsW.f) ∧
      forward mathC paramsW epsW betaW poseW [0, 0, 0] true =
        Except.ok (vs2, paramsW.f)) ∧
    (epsC = epsW → forward mathC paramsW epsC betaW poseW [0, 0, 0] true =
      forward mathC paramsW epsW betaW poseW [0, 0, 0] true) :=
  C1_determinism_up_to_noise mathC paramsW epsC epsW betaW poseW [0, 0, 0] true
    (by decide) (by decide)

/-- C1 counterexample: same bundle, same inputs, but two different noise
draws inside `_rodrigues` (the draw `(1,0,0)` on the root row versus the draw
`(0,0,0)`) give different vertex arrays, so two evaluations of `forward` are
NOT guaranteed to return the same result. -/
theorem C1_counterexample :
    forward mathC paramsW epsC betaW poseW [0, 0, 0] true ≠
      forward mathC paramsW epsW betaW poseW [0, 0, 0] true :=
  of_decide_eq_true (by with_unfolding_all rfl)

/-! Translation equivariance -/

theorem addVec_zero3_then_one : ∀ r : Vec,
    addVec (addVec r [0, 0, 0]) [1, 0, 0] = addVec r [1, 0, 0]
  | [] => rfl
  | [a] => by simp [addVec]
  | [a, b] => by simp [addVec]
  | a :: b :: c :: rest => by simp [addVec]

theorem skinStage_translate (W : Mat) (Ms : List Mat) (vp : Mat) (vs : Mat)
    (h : skinStage W Ms vp [0, 0, 0] = Except.ok vs) :
    skinStage W Ms vp [1, 0, 0] = Except.ok (vs.map fun r => addVec r [1, 0, 0]) := by
  simp only [skinStage] at h ⊢
  cases ht : tensordotW W Ms with
  | error e => rw [ht, error_bind] at h; simp at h
  | ok T =>
  rw [ht, ok_bind] at h
  rw [ok_bind]
  by_cases hlen : T.length = (vp.map fun r => r ++ [1]).length
  · rw [if_pos hlen] at h ⊢
    rw [if_pos (show ([(0 : ℚ), 0, 0]).length = 3 from rfl)] at h
    rw [if_pos (show ([(1 : ℚ), 0, 0]).length = 3 from rfl)]
    have hvs : (List.zipWith (fun Tv hv => ((mulU Tv (hv.map fun x => [x])).flatten).take 3) T
        (vp.map fun r => r ++ [1])).map (fun r => addVec r [0, 0, 0]) = vs := by
      simpa using h
    rw [← hvs, List.map_map]
    have hfun : ((fun r => addVec r [1, 0, 0]) ∘ fun r => addVec r [0, 0, 0]) =
        fun r : Vec => addVec r [1, 0, 0] := by
      funext r
      exact addVec_zero3_then_one r
    rw [hfun]
  · rw [if_neg hlen] at h
    simp at h

/-- C9: evaluating the pipeline with `Translation = (1,0,0)` gives, vertex by
vertex, exactly the `Translation = (0,0,0)` result plus the offset `(1,0,0)`,
with the same face list: the translation enters only through the final
broadcast addition of line 188. -/
theorem C9_translation_equivariance (M : TorchMath) (P : Params) (eps : ℕ → Vec)
    (beta : Vec) (pose : List Vec) (simplify : Bool) (vs : Mat) (fs : List (List ℕ))
    (h : forward M P eps beta pose [0, 0, 0] simplify = Except.ok (vs, fs)) :
    forward M P eps beta pose [1, 0, 0] simplify =
      Except.ok (vs.map fun r => addVec r [1, 0, 0], fs) := by
  obtain ⟨pm, vsh, Jm, vp, gs, rs, h1, h2, h3, h4, h5, h6, h7, h8⟩ :=
    forward_ok_inv M P eps beta pose [0, 0, 0] simplify (vs, fs) h
  simp only [forward]
  rw [h1, ok_bind, h2, ok_bind, h3, ok_bind, h4, ok_bind, h5, ok_bind, h6, ok_bind,
    skinStage_translate P.weights rs vp vs h7, ok_bind,
    show fs = P.f from h8]

/-- Witness for C9: on the concrete bundle the zero-translation run returns
the template vertex `(1,0,0)`, and the `(1,0,0)`-translation run returns it
shifted. -/
theorem C9_translation_equivariance_witness :
    forward mathW paramsW epsW betaW poseW [1, 0, 0] true =
      Except.ok (([[(1 : ℚ), 0, 0]]).map fun r => addVec r [1, 0, 0], [[0, 1, 2]]) :=
  C9_translation_equivariance mathW paramsW epsW betaW poseW true [[1, 0, 0]] [[0, 1, 2]]
    (of_decide_eq_true (by with_unfolding_all rfl))

end SMPL
